import Mathlib

/-!
# Serverless Streams — offset allocation and message I/O protocol

A shallow embedding of the core of the `serverless-streams` repository:
an append-only, partition-free message log over an immutable object store
(S3) and an atomic counter store (DynamoDB), fronted by a stateless
request router (API Gateway + Lambda, `src/infra/lib/api-stack.ts`).

The Rust handler sources (`server/src/main.rs`, `produce.rs`,
`consume.rs`) are not part of the repository snapshot; the handler
definitions below are modelled from the specification (§4.1–§4.4) and
from the flow documentation in `src/README.md` ("How It Works").
The CDK infrastructure (`src/infra/lib/data-stack.ts`,
`src/infra/lib/api-stack.ts`) is embedded from its TypeScript source.
-/

namespace ServerlessStreams

/-- Opaque structured payload: arbitrary nested JSON-compatible data.
The core treats it as fully opaque (spec §3, §9). -/
inductive Json where
  | null : Json
  | bool (b : Bool) : Json
  | num (n : Int) : Json
  | str (s : String) : Json
  | arr (elems : List Json) : Json
  | obj (fields : List (String × Json)) : Json

/-- The atomic counter store: one logical counter per topic, holding the
last allocated offset (0 = none allocated yet).  Modelled from the spec:
"Atomic Counter Store: keyed by topic; exposes increment_and_get(key),
linearizable per key" (§6). -/
abbrev Counters : Type := String → Nat

/-- A fresh counter store: every topic's counter starts at 0
(spec §3 Lifecycle). -/
def freshCounters : Counters := fun _ => 0

/-- One immutable object in the message store, keyed by (topic, offset);
the body holds the offset, the verbatim payload and the write timestamp
(spec §3 "Message"). -/
structure Entry where
  topic : String
  offset : Nat
  payload : Json
  timestamp : Nat

/-- The immutable object store, newest object first.  Modelled from the
spec: "Immutable Object Store ... put(key, bytes), list(prefix,
start_key), get(key)" (§6), with the store keyed by (topic, offset) as in
the Message Store contract (§4.2). -/
abbrev Store : Type := List Entry

/-- Modelled from the spec: `put(topic, offset, payload, timestamp)`
writes an immutable object under the key derived from (topic, offset)
(§4.2).  A same-key rewrite shadows the older object (`get` reads the
newest), matching idempotent overwrite semantics of the object store. -/
def Store.put (s : Store) (topic : String) (off : Nat) (payload : Json)
    (ts : Nat) : Store :=
  ⟨topic, off, payload, ts⟩ :: s

/-- Whether an entry is stored under the key (topic, off). -/
def keyMatch (topic : String) (off : Nat) (e : Entry) : Bool :=
  e.topic == topic && e.offset == off

/-- Modelled from the spec: `get(topic, offset) -> payload, timestamp |
not_found` fetches one message body (§4.2). -/
def Store.get (s : Store) (topic : String) (off : Nat) :
    Option (Json × Nat) :=
  (s.find? (keyMatch topic off)).map fun e => (e.payload, e.timestamp)

/-- Modelled from the spec: `list(topic, from_offset) -> sequence of
existing offsets >= from_offset`; the backend's order is not trusted, it
only discovers candidate keys (§4.2).  Here the candidates come back in
store order, deduplicated (object-store keys are unique). -/
def Store.listOffsets (s : Store) (topic : String) (fromOff : Nat) :
    List Nat :=
  ((s.filter fun e => e.topic == topic && decide (fromOff ≤ e.offset)).map
    fun e => e.offset).dedup

/-- All offsets stored under a topic (newest first, possibly shadowed). -/
def topicOffsets (s : Store) (topic : String) : List Nat :=
  (s.filter fun e => e.topic == topic).map fun e => e.offset

/-- Error taxonomy of the core (spec §7). -/
inductive Err where
  | validationError : Err
  | backendUnavailable : Err
  | writeFailed : Err
deriving DecidableEq

/-- Modelled from the spec: a topic name must be non-empty and path-safe
(§3, §4.3 step (a)). -/
def pathSafe (topic : String) : Bool :=
  !topic.data.isEmpty && !topic.data.contains '/'

/-- Modelled from the spec: `allocate(topic)` performs a single atomic
"add 1 and return new total" against the counter keyed by `topic`
(§4.1); in `src/README.md` this is the DynamoDB `UpdateItem` with `ADD`
(Produce Flow step 2). -/
def allocate (c : Counters) (topic : String) : Counters × Nat :=
  ((fun t => if t = topic then c topic + 1 else c t), c topic + 1)

/-- Modelled from the spec: the Produce Handler (§4.3), steps in strict
order: (a) validate, (b) allocate, (c) put with the handler's `now`
timestamp, (d) return the allocated offset.  `putOk` says whether the
object-store write succeeds; on a put failure the error is reported and
no rollback of the counter is attempted. -/
def produce (c : Counters) (s : Store) (topic : String) (payload : Json)
    (now : Nat) (putOk : Bool) : Counters × Store × Except Err Nat :=
  if pathSafe topic then
    let a := allocate c topic
    if putOk then
      (a.1, s.put topic a.2 payload now, Except.ok a.2)
    else
      (a.1, s, Except.error Err.writeFailed)
  else
    (c, s, Except.error Err.validationError)

/-- A sequence of produce calls to one topic, all object-store writes
succeeding; returns the final stores and the offsets handed out, in call
order. -/
def produceSeq (c : Counters) (s : Store) (topic : String) :
    List (Json × Nat) → Counters × Store × List Nat
  | [] => (c, s, [])
  | (p, t) :: rest =>
    let step := produce c s topic p t true
    let r := produceSeq step.1 step.2.1 topic rest
    (r.1, r.2.1, (match step.2.2 with
      | Except.ok off => [off]
      | Except.error _ => []) ++ r.2.2)

/-- Every stored offset is at most its topic's counter: the global
invariant linking the two backends (spec §3 I1/I3 context). -/
def GlobalInv (c : Counters) (s : Store) : Prop :=
  ∀ e ∈ s, e.offset ≤ c e.topic

/-- States of the two backends reachable from `st` by any further
produce traffic (any topics, payloads, timestamps, put outcomes): the
produce path is the only writer of either store (spec §3 Lifecycle,
Invariant I2). -/
inductive Reach : Counters × Store → Counters × Store → Prop where
  | refl (st : Counters × Store) : Reach st st
  | step (st : Counters × Store) (c : Counters) (s : Store) (topic : String)
      (payload : Json) (now : Nat) (putOk : Bool) :
      Reach st (c, s) →
      Reach st ((produce c s topic payload now putOk).1,
        (produce c s topic payload now putOk).2.1)

/-- A message as returned by the Consume Handler: offset, verbatim
payload, write timestamp (spec §6 consume response). -/
structure OutMsg where
  offset : Nat
  payload : Json
  timestamp : Nat

/-- Consume response: ordered window plus the cursor for the next call
(spec §4.4). -/
structure ConsumeResult where
  messages : List OutMsg
  next_offset : Nat

/-- Modelled from the spec: "if `offset` is absent or less than 1,
use 1" (§4.4 step 1). -/
def normOffset (off : Option Int) : Nat :=
  match off with
  | none => 1
  | some o => if o < 1 then 1 else o.toNat

/-- Modelled from the spec: `limit` defaults to 10 and is clamped into
`[1,100]` (§4.4 contract and step 1). -/
def clampLimit (lim : Option Int) : Nat :=
  match lim with
  | none => 10
  | some l => if l < 1 then 1 else if 100 < l then 100 else l.toNat

/-- Comparison used to sort fetched tuples ascending by offset
(§4.4 step 4). -/
def msgLE (a b : OutMsg) : Prop := a.offset ≤ b.offset

instance : DecidableRel msgLE := fun a b => by
  unfold msgLE; infer_instance

instance : IsTotal OutMsg msgLE :=
  ⟨fun a b => Nat.le_total a.offset b.offset⟩

instance : IsTrans OutMsg msgLE :=
  ⟨fun _ _ _ h h' => Nat.le_trans h h'⟩

/-- Fetch one body and pair it with its offset (§4.4 step 3; a missing
object is skipped, §4.4 step 6). -/
def fetchBody (s : Store) (topic : String) (o : Nat) : Option OutMsg :=
  (s.get topic o).map fun pt => ⟨o, pt.1, pt.2⟩

/-- Largest offset among returned messages (0 when none). -/
def maxOffset (l : List OutMsg) : Nat :=
  l.foldl (fun a m => Nat.max a m.offset) 0

/-- Modelled from the spec: sort the listed candidate offsets ascending
and keep the first `limit` of them (§4.4 step 2). -/
def selectOffsets (s : Store) (topic : String) (start limit : Nat) :
    List Nat :=
  (List.insertionSort (· ≤ ·) (s.listOffsets topic start)).take limit

/-- Modelled from the spec: the Consume Handler (§4.4).  Normalize the
inputs, sort the listed candidate offsets and keep the first `limit`,
fetch bodies (bounded-concurrency fetches complete in an arbitrary order,
modelled by the reordering `sched` applied to the fetched tuples), sort
the tuples ascending by offset, and compute the cursor: max returned
offset + 1, or the normalized requested offset when nothing was
returned. -/
def consume (s : Store) (topic : String) (off lim : Option Int)
    (sched : List OutMsg → List OutMsg) : ConsumeResult :=
  let messages := List.insertionSort msgLE
    (sched ((selectOffsets s topic (normOffset off) (clampLimit lim)).filterMap
      (fetchBody s topic)))
  { messages := messages
    next_offset :=
      if messages.isEmpty then normOffset off else maxOffset messages + 1 }

/-- Decimal digits of `m`, zero-padded to width `w` (most significant
first): position `i` from the right holds digit `m / 10^i % 10`. -/
def padNum : Nat → Nat → List Char
  | 0, _ => []
  | w + 1, m => Char.ofNat (48 + m / 10 ^ w % 10) :: padNum w m

/-- The storage key written by the produce path, per `src/README.md`
(Produce Flow step 3): `topics/{topic}/{offset:020}.json`. -/
def encode (topic : String) (off : Nat) : String :=
  "topics/" ++ topic ++ "/" ++ String.mk (padNum 20 off) ++ ".json"

/-- The key form as the spec words it (§4.2, §6): `topics/{topic}/{offset
zero-padded to 20 digits}` with no other key components.  Stated for
comparison with `encode`. -/
def specKey (topic : String) (off : Nat) : String :=
  "topics/" ++ topic ++ "/" ++ String.mk (padNum 20 off)

/-- Lexicographic comparison of character lists by code point — for keys
made of printable ASCII this is the byte order an object store applies
to its UTF-8 keys. -/
def lexLtB : List Char → List Char → Bool
  | [], [] => false
  | [], _ :: _ => true
  | _ :: _, [] => false
  | a :: as, b :: bs =>
    if a.val.toNat < b.val.toNat then true
    else if b.val.toNat < a.val.toNat then false
    else lexLtB as bs

/-- Lexicographic (byte) order on storage keys. -/
def keyLt (a b : String) : Bool := lexLtB a.data b.data

/-- Modelled from the spec: a concurrent execution of atomic `allocate`
calls against one topic.  Each call is a single linearizable atomic
increment (§4.1, §6), so an execution is a linearization order of the
callers; the counter starts at `prev` and each event pairs its caller
with the freshly incremented value. -/
def runAllocs : Nat → List Nat → List (Nat × Nat)
  | _, [] => []
  | prev, caller :: rest => (caller, prev + 1) :: runAllocs (prev + 1) rest

/-! ## Infrastructure embeddings (`src/infra/lib`) -/

/-- How an API Gateway method is backed in `api-stack.ts`: every defined
route uses the single Lambda integration (`lambdaIntegration`). -/
inductive Integ where
  | lambdaFn : Integ
deriving DecidableEq

/-- One defined route: HTTP verb, resource path (as segments), and the
integration dispatching it. -/
structure ApiMethod where
  verb : String
  path : List String
  integ : Integ
deriving DecidableEq

/-- The REST API under construction: the resources and methods added so
far, in declaration order. -/
structure RestApi where
  resources : List (List String)
  methods : List ApiMethod
deriving DecidableEq

/-- `parent.addResource(seg)` from `api-stack.ts`: registers the child
path and returns it. -/
def RestApi.addResource (api : RestApi) (parent : List String)
    (seg : String) : RestApi × List String :=
  ({ api with resources := api.resources ++ [parent ++ [seg]] },
   parent ++ [seg])

/-- `resource.addMethod(verb, integration)` from `api-stack.ts`. -/
def RestApi.addMethod (api : RestApi) (path : List String) (verb : String)
    (i : Integ) : RestApi :=
  { api with methods := api.methods ++ [⟨verb, path, i⟩] }

/-- The route table of `ApiStack` (`src/infra/lib/api-stack.ts`, lines
67–81), built by the exact sequence of `addResource`/`addMethod` calls in
the source. -/
def streamsApi : RestApi :=
  let api0 : RestApi := { resources := [], methods := [] }
  let r1 := api0.addResource [] "topics"
  let r2 := r1.1.addResource r1.2 "{topic}"
  let r3 := r2.1.addResource r2.2 "produce"
  let api1 := r3.1.addMethod r3.2 "POST" Integ.lambdaFn
  let r4 := api1.addResource r2.2 "consume"
  let api2 := r4.1.addMethod r4.2 "GET" Integ.lambdaFn
  let r5 := api2.addResource [] "health"
  r5.1.addMethod r5.2 "GET" Integ.lambdaFn

/-- CDK removal policy (`aws-cdk-lib`). -/
inductive RemovalPolicy where
  | DESTROY : RemovalPolicy
  | RETAIN : RemovalPolicy
deriving DecidableEq

/-- One S3 lifecycle rule as configured in `data-stack.ts`. -/
structure LifecycleRule where
  id : String
  enabled : Bool
  expirationDays : Nat
deriving DecidableEq

/-- The bucket configuration fields of `data-stack.ts` relevant to data
retention. -/
structure BucketProps where
  removalPolicy : RemovalPolicy
  autoDeleteObjects : Bool
  encryption : String
  blockPublicAccess : String
  lifecycleRules : List LifecycleRule
deriving DecidableEq

/-- The `MessagesBucket` of `DataStack` (`src/infra/lib/data-stack.ts`,
lines 15–28). -/
def messagesBucket : BucketProps :=
  { removalPolicy := RemovalPolicy.DESTROY
    autoDeleteObjects := true
    encryption := "S3_MANAGED"
    blockPublicAccess := "BLOCK_ALL"
    lifecycleRules :=
      [{ id := "ExpireOldMessages", enabled := true, expirationDays := 30 }] }

/-- Milliseconds per day. -/
def msPerDay : Nat := 86400000

/-- When an object written at `writtenAt` (ms since epoch) expires under
the bucket's enabled lifecycle rules (none ⇒ never). -/
def objectExpiry (b : BucketProps) (writtenAt : Nat) : Option Nat :=
  (b.lifecycleRules.find? fun r => r.enabled).map
    fun r => writtenAt + r.expirationDays * msPerDay

/-! ## Produce-side lemmas -/

lemma produce_ok (c : Counters) (s : Store) (topic : String) (payload : Json)
    (now : Nat) (hsafe : pathSafe topic = true) :
    produce c s topic payload now true =
      ((fun t => if t = topic then c topic + 1 else c t),
       Store.put s topic (c topic + 1) payload now,
       Except.ok (c topic + 1)) := by
  simp [produce, allocate, hsafe]

lemma produceSeq_offsets (calls : List (Json × Nat)) (c : Counters)
    (s : Store) (topic : String) (hsafe : pathSafe topic = true) :
    (produceSeq c s topic calls).2.2 =
      List.range' (c topic + 1) calls.length := by
  induction calls generalizing c s with
  | nil => rfl
  | cons call rest ih =>
    obtain ⟨p, t⟩ := call
    simp only [produceSeq, produce_ok c s topic p t hsafe, List.length_cons,
      List.range'_succ]
    rw [ih]
    simp

lemma produceSeq_counter (calls : List (Json × Nat)) (c : Counters)
    (s : Store) (topic : String) (hsafe : pathSafe topic = true) :
    (produceSeq c s topic calls).1 topic = c topic + calls.length := by
  induction calls generalizing c s with
  | nil => rfl
  | cons call rest ih =>
    obtain ⟨p, t⟩ := call
    simp only [produceSeq, produce_ok c s topic p t hsafe, List.length_cons]
    rw [ih]
    simp
    omega

lemma topicOffsets_put (s : Store) (topic : String) (off : Nat) (p : Json)
    (ts : Nat) :
    topicOffsets (Store.put s topic off p ts) topic =
      off :: topicOffsets s topic := by
  simp [topicOffsets, Store.put]

lemma produceSeq_topicOffsets (calls : List (Json × Nat)) (c : Counters)
    (s : Store) (topic : String) (hsafe : pathSafe topic = true) :
    topicOffsets (produceSeq c s topic calls).2.1 topic =
      (List.range' (c topic + 1) calls.length).reverse ++
        topicOffsets s topic := by
  induction calls generalizing c s with
  | nil => rfl
  | cons call rest ih =>
    obtain ⟨p, t⟩ := call
    simp only [produceSeq, produce_ok c s topic p t hsafe, List.length_cons,
      List.range'_succ, List.reverse_cons]
    rw [ih]
    simp [topicOffsets_put]

/-- Claim C1: starting from a fresh topic (counter 0, no stored
messages), a sequence of `k` produce calls with no write failures
returns exactly the offsets `1, 2, ..., k` in order — so the set of
returned offsets is `{1, ..., k}` with no duplicates, the first
allocation yields 1, and in the resulting store no two messages of the
topic share an offset. -/
theorem produce_monotonic_uniqueness (c : Counters) (s : Store)
    (topic : String) (calls : List (Json × Nat))
    (hsafe : pathSafe topic = true) (hc : c topic = 0)
    (hfresh : topicOffsets s topic = []) :
    (produceSeq c s topic calls).2.2 = List.range' 1 calls.length
    ∧ (produceSeq c s topic calls).2.2.Nodup
    ∧ (∀ o, o ∈ (produceSeq c s topic calls).2.2 ↔
        1 ≤ o ∧ o ≤ calls.length)
    ∧ (topicOffsets (produceSeq c s topic calls).2.1 topic).Nodup := by
  have hoff := produceSeq_offsets calls c s topic hsafe
  rw [hc] at hoff
  refine ⟨hoff, ?_, ?_, ?_⟩
  · rw [hoff]; exact List.nodup_range' 1 calls.length
  · intro o
    rw [hoff, List.mem_range'_1]
    omega
  · have hto := produceSeq_topicOffsets calls c s topic hsafe
    rw [hc, hfresh, List.append_nil] at hto
    rw [hto, List.nodup_reverse]
    exact List.nodup_range' 1 calls.length

theorem produce_monotonic_uniqueness_witness :
    (pathSafe "orders" = true) ∧ (freshCounters "orders" = 0)
    ∧ (topicOffsets [] "orders" = [])
    ∧ ((produceSeq freshCounters [] "orders"
          [(Json.null, 5), (Json.bool true, 6), (Json.num 3, 7)]).2.2 =
        List.range' 1 3) :=
  ⟨by decide, rfl, rfl,
    (produce_monotonic_uniqueness freshCounters [] "orders"
      [(Json.null, 5), (Json.bool true, 6), (Json.num 3, 7)]
      (by decide) rfl rfl).1⟩

/-! ## Concurrency lemmas -/

lemma runAllocs_snd (l : List Nat) (prev : Nat) :
    (runAllocs prev l).map Prod.snd = List.range' (prev + 1) l.length := by
  induction l generalizing prev with
  | nil => rfl
  | cons a l ih => simp [runAllocs, List.range'_succ, ih]

lemma runAllocs_fst (l : List Nat) (prev : Nat) :
    (runAllocs prev l).map Prod.fst = l := by
  induction l generalizing prev with
  | nil => rfl
  | cons a l ih => simp [runAllocs, ih]

lemma mem_runAllocs_snd_gt (l : List Nat) (prev i v : Nat)
    (h : (i, v) ∈ runAllocs prev l) : prev < v := by
  induction l generalizing prev with
  | nil => cases h
  | cons a l ih =>
    rcases List.mem_cons.1 h with heq | htl
    · rw [Prod.mk.injEq] at heq
      omega
    · have := ih (prev + 1) htl
      omega

lemma runAllocs_snd_inj (l : List Nat) (prev i₁ i₂ v : Nat)
    (h₁ : (i₁, v) ∈ runAllocs prev l) (h₂ : (i₂, v) ∈ runAllocs prev l) :
    i₁ = i₂ := by
  induction l generalizing prev with
  | nil => cases h₁
  | cons a l ih =>
    rcases List.mem_cons.1 h₁ with he₁ | ht₁ <;>
      rcases List.mem_cons.1 h₂ with he₂ | ht₂
    · rw [Prod.mk.injEq] at he₁ he₂
      omega
    · rw [Prod.mk.injEq] at he₁
      have := mem_runAllocs_snd_gt l (prev + 1) i₂ v ht₂
      omega
    · rw [Prod.mk.injEq] at he₂
      have := mem_runAllocs_snd_gt l (prev + 1) i₁ v ht₁
      omega
    · exact ih (prev + 1) ht₁ ht₂

lemma mem_runAllocs_fst (l : List Nat) (prev i v : Nat)
    (h : (i, v) ∈ runAllocs prev l) : i ∈ l := by
  have : i ∈ (runAllocs prev l).map Prod.fst :=
    List.mem_map.2 ⟨(i, v), h, rfl⟩
  rwa [runAllocs_fst] at this

lemma runAllocs_fst_inj (l : List Nat) (prev : Nat) (hnd : l.Nodup)
    (i v₁ v₂ : Nat) (h₁ : (i, v₁) ∈ runAllocs prev l)
    (h₂ : (i, v₂) ∈ runAllocs prev l) : v₁ = v₂ := by
  induction l generalizing prev with
  | nil => cases h₁
  | cons a l ih =>
    have hnd' := List.nodup_cons.1 hnd
    rcases List.mem_cons.1 h₁ with he₁ | ht₁ <;>
      rcases List.mem_cons.1 h₂ with he₂ | ht₂
    · rw [Prod.mk.injEq] at he₁ he₂
      omega
    · rw [Prod.mk.injEq] at he₁
      exact absurd (he₁.1 ▸ mem_runAllocs_fst l (prev + 1) i v₂ ht₂) hnd'.1
    · rw [Prod.mk.injEq] at he₂
      exact absurd (he₂.1 ▸ mem_runAllocs_fst l (prev + 1) i v₁ ht₁) hnd'.1
    · exact ih (prev + 1) hnd'.2 ht₁ ht₂

lemma exists_runAllocs_of_mem (l : List Nat) (prev i : Nat) (hi : i ∈ l) :
    ∃ v, (i, v) ∈ runAllocs prev l := by
  induction l generalizing prev with
  | nil => cases hi
  | cons a l ih =>
    rcases List.mem_cons.1 hi with rfl | htl
    · exact ⟨prev + 1, List.mem_cons_self _ _⟩
    · obtain ⟨v, hv⟩ := ih (prev + 1) htl
      exact ⟨v, List.mem_cons_of_mem _ hv⟩

/-- Claim C5: `n` concurrent `allocate` calls against one topic, with
prior counter value `prev`, are an arbitrary linearization of `n` atomic
increments; across all interleavings the returned values are exactly
`{prev+1, ..., prev+n}`, with no duplicates and no drops, each value
returned to exactly one caller and each caller receiving exactly one
value.  (Instantiated at `prev = 0`, `n = 20` in the witness: 20
concurrent calls to a fresh topic receive exactly the offsets
`1, ..., 20`.) -/
theorem concurrent_alloc_exact (prev n : Nat) (callers : List Nat)
    (hlin : callers.Perm (List.range n)) :
    (runAllocs prev callers).length = n
    ∧ (runAllocs prev callers).map Prod.snd = List.range' (prev + 1) n
    ∧ ((runAllocs prev callers).map Prod.snd).Nodup
    ∧ (∀ v, v ∈ (runAllocs prev callers).map Prod.snd ↔
        prev + 1 ≤ v ∧ v ≤ prev + n)
    ∧ (∀ i, i ∈ callers → ∃! v, (i, v) ∈ runAllocs prev callers)
    ∧ (∀ v, prev + 1 ≤ v → v ≤ prev + n →
        ∃! i, (i, v) ∈ runAllocs prev callers) := by
  have hlen : callers.length = n := by
    simpa using hlin.length_eq
  have hnd : callers.Nodup := (List.nodup_range n).perm hlin.symm
  have hsnd := runAllocs_snd callers prev
  rw [hlen] at hsnd
  have hlength : (runAllocs prev callers).length = n := by
    have := congrArg List.length hsnd
    simpa using this
  refine ⟨hlength, hsnd, ?_, ?_, ?_, ?_⟩
  · rw [hsnd]; exact List.nodup_range' (prev + 1) n
  · intro v
    rw [hsnd, List.mem_range'_1]
    omega
  · intro i hi
    obtain ⟨v, hv⟩ := exists_runAllocs_of_mem callers prev i hi
    exact ⟨v, hv, fun v' hv' =>
      runAllocs_fst_inj callers prev hnd i v' v hv' hv⟩
  · intro v hv₁ hv₂
    have hvmem : v ∈ (runAllocs prev callers).map Prod.snd := by
      rw [hsnd, List.mem_range'_1]; omega
    obtain ⟨⟨i, v'⟩, hmem, hv'⟩ := List.mem_map.1 hvmem
    have hv2 : v' = v := hv'
    rw [hv2] at hmem
    exact ⟨i, hmem, fun i' hi' =>
      runAllocs_snd_inj callers prev i' i v hi' hmem⟩

theorem concurrent_alloc_exact_witness :
    ((List.range 20).reverse.Perm (List.range 20))
    ∧ ((runAllocs 0 (List.range 20).reverse).map Prod.snd =
        List.range' 1 20) :=
  ⟨List.reverse_perm (List.range 20),
    (concurrent_alloc_exact 0 20 (List.range 20).reverse
      (List.reverse_perm (List.range 20))).2.1⟩

/-- Claim C6: when offset allocation succeeds but the message-store put
fails, the handler reports a `WriteFailed` error, writes no message
object, attempts no rollback of the counter — exactly the counter
advancement persists (a permanent gap); on a fully successful call
exactly one new immutable object is written (under a previously unused
(topic, offset) key) and exactly one counter advancement occurs. -/
theorem produce_failure_effects (c : Counters) (s : Store) (topic : String)
    (payload : Json) (now : Nat) (hsafe : pathSafe topic = true)
    (hinv : GlobalInv c s) :
    (produce c s topic payload now false).2.2 =
      Except.error Err.writeFailed
    ∧ (produce c s topic payload now false).2.1 = s
    ∧ (produce c s topic payload now false).1 topic = c topic + 1
    ∧ (∀ t, t ≠ topic → (produce c s topic payload now false).1 t = c t)
    ∧ (produce c s topic payload now true).2.2 = Except.ok (c topic + 1)
    ∧ (produce c s topic payload now true).2.1 =
        (⟨topic, c topic + 1, payload, now⟩ : Entry) :: s
    ∧ (¬ ∃ e ∈ s, e.topic = topic ∧ e.offset = c topic + 1)
    ∧ (produce c s topic payload now true).1 topic = c topic + 1
    ∧ (∀ t, t ≠ topic → (produce c s topic payload now true).1 t = c t) := by
  refine ⟨?_, ?_, ?_, ?_, ?_, ?_, ?_, ?_, ?_⟩
  · simp [produce, hsafe]
  · simp [produce, hsafe]
  · simp [produce, allocate, hsafe]
  · intro t ht; simp [produce, allocate, hsafe, ht]
  · simp [produce, allocate, hsafe]
  · simp [produce, allocate, hsafe, Store.put]
  · rintro ⟨e, he, h₁, h₂⟩
    have := hinv e he
    rw [h₁] at this
    omega
  · simp [produce, allocate, hsafe]
  · intro t ht; simp [produce, allocate, hsafe, ht]

theorem produce_failure_effects_witness :
    (pathSafe "orders" = true)
    ∧ (GlobalInv freshCounters [])
    ∧ ((produce freshCounters [] "orders" Json.null 5 false).2.2 =
        Except.error Err.writeFailed)
    ∧ ((produce freshCounters [] "orders" Json.null 5 false).1 "orders" = 1) :=
  ⟨by decide, fun e he => absurd he (List.not_mem_nil e),
    (produce_failure_effects freshCounters [] "orders" Json.null 5
      (by decide) (fun e he => absurd he (List.not_mem_nil e))).1,
    (produce_failure_effects freshCounters [] "orders" Json.null 5
      (by decide) (fun e he => absurd he (List.not_mem_nil e))).2.2.1⟩

/-! ## Consume-side lemmas -/

lemma consume_messages (s : Store) (topic : String) (off lim : Option Int)
    (sched : List OutMsg → List OutMsg) :
    (consume s topic off lim sched).messages =
      List.insertionSort msgLE
        (sched ((selectOffsets s topic (normOffset off)
          (clampLimit lim)).filterMap (fetchBody s topic))) := rfl

lemma consume_next (s : Store) (topic : String) (off lim : Option Int)
    (sched : List OutMsg → List OutMsg) :
    (consume s topic off lim sched).next_offset =
      if (consume s topic off lim sched).messages.isEmpty then
        normOffset off
      else maxOffset (consume s topic off lim sched).messages + 1 := rfl

lemma fetchBody_offset (s : Store) (topic : String) (o : Nat) (m : OutMsg)
    (h : fetchBody s topic o = some m) : m.offset = o := by
  unfold fetchBody at h
  cases hg : Store.get s topic o with
  | none => rw [hg] at h; cases h
  | some pt =>
    rw [hg] at h
    cases h
    rfl

lemma fetchBody_get (s : Store) (topic : String) (o : Nat) (m : OutMsg)
    (h : fetchBody s topic o = some m) :
    Store.get s topic m.offset = some (m.payload, m.timestamp) := by
  unfold fetchBody at h
  cases hg : Store.get s topic o with
  | none => rw [hg] at h; cases h
  | some pt =>
    rw [hg] at h
    cases h
    exact hg

lemma offsets_filterMap_sublist (s : Store) (topic : String) (l : List Nat) :
    ((l.filterMap (fetchBody s topic)).map fun m => m.offset).Sublist l := by
  induction l with
  | nil => simp
  | cons o l ih =>
    rw [List.filterMap_cons]
    cases hf : fetchBody s topic o with
    | none => exact List.Sublist.cons o ih
    | some m =>
      rw [List.map_cons, fetchBody_offset s topic o m hf]
      exact List.Sublist.cons₂ o ih

lemma listOffsets_nodup (s : Store) (topic : String) (start : Nat) :
    (s.listOffsets topic start).Nodup :=
  List.nodup_dedup _

lemma mem_listOffsets_le (s : Store) (topic : String) (start o : Nat)
    (h : o ∈ s.listOffsets topic start) : start ≤ o := by
  unfold Store.listOffsets at h
  rw [List.mem_dedup] at h
  obtain ⟨e, he, rfl⟩ := List.mem_map.1 h
  have := (List.mem_filter.1 he).2
  simp only [Bool.and_eq_true, decide_eq_true_eq] at this
  exact this.2

lemma selectOffsets_nodup (s : Store) (topic : String) (start limit : Nat) :
    (selectOffsets s topic start limit).Nodup :=
  (List.take_sublist _ _).nodup
    ((List.perm_insertionSort _ _).symm.nodup (listOffsets_nodup s topic start))

lemma mem_selectOffsets_le (s : Store) (topic : String) (start limit o : Nat)
    (h : o ∈ selectOffsets s topic start limit) : start ≤ o := by
  unfold selectOffsets at h
  have h₂ := (List.take_sublist _ _).subset h
  rw [(List.perm_insertionSort _ _).mem_iff] at h₂
  exact mem_listOffsets_le s topic start o h₂

lemma consume_messages_perm (s : Store) (topic : String) (off lim : Option Int)
    (sched : List OutMsg → List OutMsg) (hs : ∀ l, (sched l).Perm l) :
    (consume s topic off lim sched).messages.Perm
      ((selectOffsets s topic (normOffset off) (clampLimit lim)).filterMap
        (fetchBody s topic)) := by
  rw [consume_messages]
  exact (List.perm_insertionSort _ _).trans (hs _)

lemma mem_consume_fetch (s : Store) (topic : String) (off lim : Option Int)
    (sched : List OutMsg → List OutMsg) (hs : ∀ l, (sched l).Perm l)
    (m : OutMsg) (hm : m ∈ (consume s topic off lim sched).messages) :
    ∃ o ∈ selectOffsets s topic (normOffset off) (clampLimit lim),
      fetchBody s topic o = some m := by
  rw [(consume_messages_perm s topic off lim sched hs).mem_iff] at hm
  obtain ⟨o, ho, hf⟩ := List.mem_filterMap.1 hm
  exact ⟨o, ho, hf⟩

lemma foldl_max_init (l : List OutMsg) (a : Nat) :
    a ≤ l.foldl (fun x m => Nat.max x m.offset) a := by
  induction l generalizing a with
  | nil => simp
  | cons m l ih =>
    exact le_trans (Nat.le_max_left a m.offset) (ih _)

lemma le_foldl_max (l : List OutMsg) (a : Nat) (m : OutMsg) (hm : m ∈ l) :
    m.offset ≤ l.foldl (fun x n => Nat.max x n.offset) a := by
  induction l generalizing a with
  | nil => cases hm
  | cons n l ih =>
    rcases List.mem_cons.1 hm with rfl | h
    · exact le_trans (Nat.le_max_right a m.offset) (foldl_max_init l _)
    · exact ih _ h

lemma foldl_max_mem (l : List OutMsg) (a : Nat) :
    l.foldl (fun x n => Nat.max x n.offset) a = a ∨
      ∃ m ∈ l, l.foldl (fun x n => Nat.max x n.offset) a = m.offset := by
  induction l generalizing a with
  | nil => exact Or.inl rfl
  | cons n l ih =>
    rcases ih (Nat.max a n.offset) with h | ⟨m, hm, he⟩
    · rcases Nat.le_total a n.offset with hle | hle
      · refine Or.inr ⟨n, List.mem_cons_self n l, ?_⟩
        rw [List.foldl_cons, h]
        exact Nat.max_eq_right hle
      · rw [List.foldl_cons, h]
        exact Or.inl (Nat.max_eq_left hle)
    · exact Or.inr ⟨m, List.mem_cons_of_mem n hm, by rw [List.foldl_cons, he]⟩

lemma maxOffset_mem (l : List OutMsg) (h : l ≠ []) :
    ∃ m ∈ l, maxOffset l = m.offset := by
  match l with
  | n :: l' =>
    unfold maxOffset
    rcases foldl_max_mem (n :: l') 0 with h₀ | he
    · refine ⟨n, List.mem_cons_self n l', ?_⟩
      have hn := le_foldl_max (n :: l') 0 n (List.mem_cons_self n l')
      omega
    · exact he

/-- Claim C2: for every consume call, if `messages` is non-empty then
`next_offset` is the maximum returned offset plus one, and if `messages`
is empty then `next_offset` is the normalized requested offset — so
repeated polling with no new data returns the same cursor. -/
theorem consume_cursor (s : Store) (topic : String) (off lim : Option Int)
    (sched : List OutMsg → List OutMsg) :
    ((consume s topic off lim sched).messages = [] →
      (consume s topic off lim sched).next_offset = normOffset off)
    ∧ ((consume s topic off lim sched).messages ≠ [] →
      (∃ m ∈ (consume s topic off lim sched).messages,
        (consume s topic off lim sched).next_offset = m.offset + 1)
      ∧ (∀ m ∈ (consume s topic off lim sched).messages,
        m.offset + 1 ≤ (consume s topic off lim sched).next_offset)) := by
  constructor
  · intro h
    rw [consume_next, h]
    rfl
  · intro h
    have hne : (consume s topic off lim sched).messages.isEmpty = false := by
      rwa [List.isEmpty_eq_false]
    rw [consume_next, hne]
    simp only [Bool.false_eq_true, if_false]
    constructor
    · obtain ⟨m, hm, he⟩ := maxOffset_mem _ h
      exact ⟨m, hm, by rw [he]⟩
    · intro m hm
      have := le_foldl_max (consume s topic off lim sched).messages 0 m hm
      unfold maxOffset
      omega

theorem consume_cursor_witness :
    (∃ m ∈ (consume [⟨"orders", 1, Json.null, 5⟩] "orders" (some 1)
        (some 10) id).messages,
      (consume [⟨"orders", 1, Json.null, 5⟩] "orders" (some 1) (some 10)
        id).next_offset = m.offset + 1)
    ∧ (consume [] "orders" (some 5) (some 10) id).next_offset =
        normOffset (some 5) :=
  ⟨((consume_cursor [⟨"orders", 1, Json.null, 5⟩] "orders" (some 1)
      (some 10) id).2
      (fun h => List.noConfusion
        (show ((⟨1, Json.null, 5⟩ : OutMsg) :: []) = ([] : List OutMsg)
          from h))).1,
   (consume_cursor [] "orders" (some 5) (some 10) id).1 rfl⟩

/-- Claim C3: for every consume call, the returned `messages` are
strictly ascending by offset (the handler sorts the concurrently
fetched tuples by offset before returning), and every returned offset is
at least the normalized requested starting offset. -/
theorem consume_ordering (s : Store) (topic : String) (off lim : Option Int)
    (sched : List OutMsg → List OutMsg) (hs : ∀ l, (sched l).Perm l) :
    ((consume s topic off lim sched).messages.map fun m => m.offset).Sorted
      (· < ·)
    ∧ ∀ m ∈ (consume s topic off lim sched).messages,
        normOffset off ≤ m.offset := by
  have hperm := consume_messages_perm s topic off lim sched hs
  have hnd : ((consume s topic off lim sched).messages.map
      fun m => m.offset).Nodup := by
    have hsub := offsets_filterMap_sublist s topic
      (selectOffsets s topic (normOffset off) (clampLimit lim))
    have hnd₀ := hsub.nodup
      (selectOffsets_nodup s topic (normOffset off) (clampLimit lim))
    exact ((hperm.map fun m => m.offset).symm.nodup hnd₀)
  constructor
  · have hsorted : (consume s topic off lim sched).messages.Sorted msgLE := by
      rw [consume_messages]
      exact List.sorted_insertionSort msgLE _
    have hle : ((consume s topic off lim sched).messages.map
        fun m => m.offset).Sorted (· ≤ ·) := List.pairwise_map.2 hsorted
    exact hle.lt_of_le hnd
  · intro m hm
    obtain ⟨o, ho, hf⟩ := mem_consume_fetch s topic off lim sched hs m hm
    rw [fetchBody_offset s topic o m hf]
    exact mem_selectOffsets_le s topic (normOffset off) (clampLimit lim) o ho

theorem consume_ordering_witness :
    (((consume [⟨"orders", 2, Json.null, 6⟩, ⟨"orders", 1, Json.null, 5⟩]
        "orders" (some 1) (some 10) id).messages.map fun m =>
          m.offset).Sorted (· < ·))
    ∧ ∀ m ∈ (consume [⟨"orders", 2, Json.null, 6⟩, ⟨"orders", 1, Json.null, 5⟩]
        "orders" (some 1) (some 10) id).messages,
        normOffset (some 1) ≤ m.offset :=
  consume_ordering [⟨"orders", 2, Json.null, 6⟩, ⟨"orders", 1, Json.null, 5⟩]
    "orders" (some 1) (some 10) id (fun l => List.Perm.refl l)

lemma consume_congr_norm (s : Store) (topic : String) (lim : Option Int)
    (sched : List OutMsg → List OutMsg) (off₁ off₂ : Option Int)
    (h : normOffset off₁ = normOffset off₂) :
    consume s topic off₁ lim sched = consume s topic off₂ lim sched := by
  simp only [consume, h]

lemma consume_congr_clamp (s : Store) (topic : String) (off : Option Int)
    (sched : List OutMsg → List OutMsg) (lim₁ lim₂ : Option Int)
    (h : clampLimit lim₁ = clampLimit lim₂) :
    consume s topic off lim₁ sched = consume s topic off lim₂ sched := by
  simp only [consume, h]

lemma clampLimit_bounds (lim : Option Int) :
    1 ≤ clampLimit lim ∧ clampLimit lim ≤ 100 := by
  cases lim with
  | none => exact ⟨by decide, by decide⟩
  | some l =>
    simp only [clampLimit]
    rcases lt_or_le l 1 with h | h
    · rw [if_pos h]; omega
    · rw [if_neg (not_lt.2 h)]
      rcases lt_or_le 100 l with h₂ | h₂
      · rw [if_pos h₂]; omega
      · rw [if_neg (not_lt.2 h₂)]; omega

lemma consume_length_le (s : Store) (topic : String) (off lim : Option Int)
    (sched : List OutMsg → List OutMsg) (hs : ∀ l, (sched l).Perm l) :
    (consume s topic off lim sched).messages.length ≤ clampLimit lim := by
  rw [(consume_messages_perm s topic off lim sched hs).length_eq]
  have h₁ := List.length_filterMap_le (fetchBody s topic)
    (selectOffsets s topic (normOffset off) (clampLimit lim))
  have h₂ : (selectOffsets s topic (normOffset off)
      (clampLimit lim)).length ≤ clampLimit lim := by
    unfold selectOffsets
    rw [List.length_take]
    exact Nat.min_le_left _ _
  omega

/-- Claim C7: consume inputs are normalized before use — an absent
offset, or one less than 1, behaves as offset 1; an absent limit behaves
as limit 10; a supplied limit is clamped into [1,100] (e.g. 500 behaves
as 100); and the number of returned messages never exceeds the clamped
limit. -/
theorem consume_normalization (s : Store) (topic : String)
    (off lim : Option Int) (sched : List OutMsg → List OutMsg) :
    consume s topic none lim sched = consume s topic (some 1) lim sched
    ∧ (∀ o : Int, o < 1 →
        consume s topic (some o) lim sched =
          consume s topic (some 1) lim sched)
    ∧ consume s topic off none sched = consume s topic off (some 10) sched
    ∧ consume s topic off (some 500) sched =
        consume s topic off (some 100) sched
    ∧ 1 ≤ clampLimit lim ∧ clampLimit lim ≤ 100
    ∧ ((∀ l, (sched l).Perm l) →
        (consume s topic off lim sched).messages.length ≤ clampLimit lim) := by
  refine ⟨?_, ?_, ?_, ?_, (clampLimit_bounds lim).1, (clampLimit_bounds lim).2,
    fun hs => consume_length_le s topic off lim sched hs⟩
  · exact consume_congr_norm s topic lim sched none (some 1) (by decide)
  · intro o ho
    refine consume_congr_norm s topic lim sched (some o) (some 1) ?_
    simp [normOffset, ho]
  · exact consume_congr_clamp s topic off sched none (some 10) (by decide)
  · exact consume_congr_clamp s topic off sched (some 500) (some 100)
      (by decide)

theorem consume_normalization_witness :
    ((-5 : Int) < 1
      ∧ consume [] "orders" (some (-5)) (some 500) id =
          consume [] "orders" (some 1) (some 500) id)
    ∧ (consume [] "orders" (some 1) (some 500) id).messages.length ≤
        clampLimit (some 500) :=
  ⟨⟨by decide,
    (consume_normalization [] "orders" (some 1) (some 500) id).2.1 (-5)
      (by decide)⟩,
   (consume_normalization [] "orders" (some 1) (some 500) id).2.2.2.2.2.2
     (fun l => List.Perm.refl l)⟩

/-! ## Immutability and round-trip lemmas -/

lemma get_put_self (s : Store) (topic : String) (off : Nat) (p : Json)
    (ts : Nat) : (s.put topic off p ts).get topic off = some (p, ts) := by
  unfold Store.put Store.get
  rw [List.find?_cons_of_pos]
  · rfl
  · simp [keyMatch]

lemma get_put_ne (s : Store) (t₁ : String) (o₁ : Nat) (p : Json) (ts : Nat)
    (t : String) (o : Nat) (h : ¬(t₁ = t ∧ o₁ = o)) :
    (s.put t₁ o₁ p ts).get t o = s.get t o := by
  unfold Store.put Store.get
  rw [List.find?_cons_of_neg]
  simp only [keyMatch, Bool.and_eq_true, beq_iff_eq, not_and]
  intro ht
  exact fun ho => h ⟨ht, ho⟩

lemma get_mem (s : Store) (t : String) (o : Nat) (v : Json × Nat)
    (h : s.get t o = some v) : ∃ e ∈ s, e.topic = t ∧ e.offset = o := by
  unfold Store.get at h
  cases hf : s.find? (keyMatch t o) with
  | none => rw [hf] at h; cases h
  | some e =>
    have hm := List.mem_of_find?_eq_some hf
    have hp := List.find?_some hf
    simp only [keyMatch, Bool.and_eq_true, beq_iff_eq] at hp
    exact ⟨e, hm, hp⟩

lemma counters_le_allocate (c : Counters) (topic t : String) :
    c t ≤ (allocate c topic).1 t := by
  unfold allocate
  dsimp only
  split
  · rename_i h; subst h; omega
  · omega

lemma globalInv_produce (c : Counters) (s : Store) (topic : String)
    (p : Json) (now : Nat) (ok : Bool) (hinv : GlobalInv c s) :
    GlobalInv (produce c s topic p now ok).1
      (produce c s topic p now ok).2.1 := by
  intro e he
  by_cases hsafe : pathSafe topic = true
  · cases ok with
    | false =>
      have hstore : (produce c s topic p now false).2.1 = s := by
        simp [produce, hsafe]
      have hcnt : (produce c s topic p now false).1 =
          (allocate c topic).1 := by simp [produce, hsafe]
      rw [hstore] at he
      rw [hcnt]
      exact le_trans (hinv e he) (counters_le_allocate c topic e.topic)
    | true =>
      have hstore : (produce c s topic p now true).2.1 =
          Store.put s topic (c topic + 1) p now := by
        simp [produce, allocate, hsafe]
      have hcnt : (produce c s topic p now true).1 =
          (allocate c topic).1 := by simp [produce, hsafe]
      rw [hstore] at he
      rw [hcnt]
      rcases List.mem_cons.1 he with rfl | he'
      · show c topic + 1 ≤ (allocate c topic).1 topic
        unfold allocate
        simp
      · exact le_trans (hinv e he') (counters_le_allocate c topic e.topic)
  · have h₁ : (produce c s topic p now ok).2.1 = s := by simp [produce, hsafe]
    have h₂ : (produce c s topic p now ok).1 = c := by simp [produce, hsafe]
    rw [h₁] at he
    rw [h₂]
    exact hinv e he

lemma get_produce_preserved (c : Counters) (s : Store) (topic' : String)
    (p : Json) (now : Nat) (ok : Bool) (topic : String) (off : Nat)
    (v : Json × Nat) (hinv : GlobalInv c s)
    (hget : s.get topic off = some v) :
    (produce c s topic' p now ok).2.1.get topic off = some v := by
  by_cases hsafe : pathSafe topic' = true
  · cases ok with
    | false =>
      have hstore : (produce c s topic' p now false).2.1 = s := by
        simp [produce, hsafe]
      rw [hstore]
      exact hget
    | true =>
      have hstore : (produce c s topic' p now true).2.1 =
          Store.put s topic' (c topic' + 1) p now := by
        simp [produce, allocate, hsafe]
      rw [hstore, get_put_ne]
      · exact hget
      · rintro ⟨rfl, hoff⟩
        obtain ⟨e, he, h₁, h₂⟩ := get_mem s topic' off v hget
        have hle := hinv e he
        rw [h₁, h₂] at hle
        omega
  · have hstore : (produce c s topic' p now ok).2.1 = s := by
      simp [produce, hsafe]
    rw [hstore]
    exact hget

lemma reach_globalInv (st₁ st₂ : Counters × Store) (h : Reach st₁ st₂)
    (hinv : GlobalInv st₁.1 st₁.2) : GlobalInv st₂.1 st₂.2 := by
  induction h with
  | refl => exact hinv
  | step c s topic p now ok hr ih =>
    exact globalInv_produce c s topic p now ok ih

lemma reach_get (st₁ st₂ : Counters × Store) (h : Reach st₁ st₂)
    (hinv : GlobalInv st₁.1 st₁.2) (topic : String) (off : Nat)
    (v : Json × Nat) (hget : st₁.2.get topic off = some v) :
    st₂.2.get topic off = some v := by
  induction h with
  | refl => exact hget
  | step c s topic' p now ok hr ih =>
    exact get_produce_preserved c s topic' p now ok topic off v
      (reach_globalInv st₁ (c, s) hr hinv) ih

lemma mem_consume_get (s : Store) (topic : String) (off lim : Option Int)
    (sched : List OutMsg → List OutMsg) (hs : ∀ l, (sched l).Perm l)
    (m : OutMsg) (hm : m ∈ (consume s topic off lim sched).messages) :
    s.get topic m.offset = some (m.payload, m.timestamp) := by
  obtain ⟨o, _, hf⟩ := mem_consume_fetch s topic off lim sched hs m hm
  exact fetchBody_get s topic o m hf

/-- Claim C4: a payload accepted by a successful produce call is stored
verbatim and never transformed: any later consume call (after arbitrary
further produce traffic) that returns a message at the allocated offset
returns a payload structurally equal to the one submitted. -/
theorem payload_round_trip (c : Counters) (s : Store) (topic : String)
    (payload : Json) (now : Nat) (hsafe : pathSafe topic = true)
    (hinv : GlobalInv c s) (st₂ : Counters × Store)
    (hreach : Reach ((produce c s topic payload now true).1,
      (produce c s topic payload now true).2.1) st₂)
    (off lim : Option Int) (sched : List OutMsg → List OutMsg)
    (hs : ∀ l, (sched l).Perm l) (m : OutMsg)
    (hm : m ∈ (consume st₂.2 topic off lim sched).messages)
    (hoff : m.offset = c topic + 1) :
    m.payload = payload := by
  have hstore : (produce c s topic payload now true).2.1 =
      Store.put s topic (c topic + 1) payload now := by
    simp [produce, allocate, hsafe]
  have hget₁ : (produce c s topic payload now true).2.1.get topic
      (c topic + 1) = some (payload, now) := by
    rw [hstore]
    exact get_put_self s topic (c topic + 1) payload now
  have hinv₁ : GlobalInv (produce c s topic payload now true).1
      (produce c s topic payload now true).2.1 :=
    globalInv_produce c s topic payload now true hinv
  have hget₂ := reach_get _ st₂ hreach hinv₁ topic (c topic + 1)
    (payload, now) hget₁
  have hget₃ := mem_consume_get st₂.2 topic off lim sched hs m hm
  rw [hoff, hget₂] at hget₃
  have heq := Option.some.inj hget₃
  rw [Prod.mk.injEq] at heq
  exact heq.1.symm

theorem payload_round_trip_witness :
    ((⟨1, Json.str "book", 5⟩ : OutMsg) ∈
      (consume (produce freshCounters [] "orders" (Json.str "book") 5
          true).2.1 "orders" (some 1) (some 10) id).messages)
    ∧ (⟨1, Json.str "book", 5⟩ : OutMsg).payload = Json.str "book" := by
  have hmem : (⟨1, Json.str "book", 5⟩ : OutMsg) ∈
      (consume (produce freshCounters [] "orders" (Json.str "book") 5
          true).2.1 "orders" (some 1) (some 10) id).messages := by
    have hmsgs : (consume (produce freshCounters [] "orders"
        (Json.str "book") 5 true).2.1 "orders" (some 1) (some 10)
          id).messages = [⟨1, Json.str "book", 5⟩] := rfl
    rw [hmsgs]
    exact List.mem_singleton.2 rfl
  exact ⟨hmem,
    payload_round_trip freshCounters [] "orders" (Json.str "book") 5
      (by decide) (fun e he => absurd he (List.not_mem_nil e)) _
      (Reach.refl _) (some 1) (some 10) id (fun l => List.Perm.refl l)
      ⟨1, Json.str "book", 5⟩ hmem rfl⟩

/-! ## Infrastructure claims -/

/-- Claim C9: the HTTP surface defines exactly three operation routes —
POST /topics/\x7btopic\x7d/produce, GET /topics/\x7btopic\x7d/consume and
GET /health — all dispatched to the single stateless Lambda entry point,
and no other methods or resource paths are defined by the stack. -/
theorem api_routes_exact :
    streamsApi.methods =
      [⟨"POST", ["topics", "{topic}", "produce"], Integ.lambdaFn⟩,
       ⟨"GET", ["topics", "{topic}", "consume"], Integ.lambdaFn⟩,
       ⟨"GET", ["health"], Integ.lambdaFn⟩]
    ∧ streamsApi.methods.length = 3
    ∧ (∀ m ∈ streamsApi.methods, m.integ = Integ.lambdaFn)
    ∧ streamsApi.resources =
      [["topics"], ["topics", "{topic}"], ["topics", "{topic}", "produce"],
       ["topics", "{topic}", "consume"], ["health"]] := by
  refine ⟨rfl, rfl, ?_, rfl⟩
  decide

theorem api_routes_exact_witness :
    (⟨"GET", ["health"], Integ.lambdaFn⟩ : ApiMethod) ∈ streamsApi.methods
    ∧ (⟨"GET", ["health"], Integ.lambdaFn⟩ : ApiMethod).integ =
        Integ.lambdaFn :=
  ⟨by decide,
   api_routes_exact.2.2.1 ⟨"GET", ["health"], Integ.lambdaFn⟩ (by decide)⟩

/-- Claim C10: the data stack's message bucket carries a single enabled
lifecycle rule, id ExpireOldMessages, expiring every stored object 30
days after it is written, and the bucket uses removal policy DESTROY
with auto-delete of objects — deletion is performed by the external
store on a fixed 30-day schedule. -/
theorem bucket_lifecycle_expiry :
    messagesBucket.lifecycleRules =
      [{ id := "ExpireOldMessages", enabled := true, expirationDays := 30 }]
    ∧ (∀ t : Nat, objectExpiry messagesBucket t = some (t + 30 * msPerDay))
    ∧ messagesBucket.removalPolicy = RemovalPolicy.DESTROY
    ∧ messagesBucket.autoDeleteObjects = true :=
  ⟨rfl, fun _ => rfl, rfl, rfl⟩

/-! ## Key encoding (claim C8) -/

/-- Counterexample to claim C8 as stated: the stored key carries a
`.json` suffix after the zero-padded offset (`src/README.md`, Produce
Flow step 3), so it is not exactly `topics/\x7btopic\x7d/\x7boffset:020\x7d`. -/
theorem key_encoding_cex : encode "orders" 1 ≠ specKey "orders" 1 := by
  decide

lemma char_lt_digits : ∀ d₁ < 10, ∀ d₂ < 10,
    ((Char.ofNat (48 + d₁)).val.toNat < (Char.ofNat (48 + d₂)).val.toNat ↔
      d₁ < d₂) := by decide

lemma lexLtB_irrefl (l : List Char) : lexLtB l l = false := by
  induction l with
  | nil => rfl
  | cons a l ih => simp [lexLtB, Nat.lt_irrefl, ih]

lemma lexLtB_append_iff (xs a b : List Char) :
    lexLtB (xs ++ a) (xs ++ b) = lexLtB a b := by
  induction xs with
  | nil => rfl
  | cons x xs ih => simp [lexLtB, Nat.lt_irrefl, ih]

lemma lexLtB_append_same (a : List Char) : ∀ (b s : List Char),
    a.length = b.length → lexLtB (a ++ s) (b ++ s) = lexLtB a b := by
  induction a with
  | nil =>
    intro b s hlen
    cases b with
    | nil => exact lexLtB_irrefl s
    | cons y b => cases hlen
  | cons x a ih =>
    intro b s hlen
    cases b with
    | nil => cases hlen
    | cons y b =>
      have hlen' : a.length = b.length := by simpa using hlen
      simp only [List.cons_append, lexLtB, List.append_eq, ih b s hlen']

lemma padNum_length (w : Nat) : ∀ m, (padNum w m).length = w := by
  induction w with
  | zero => intro m; rfl
  | succ w ih => intro m; simp [padNum, ih]

lemma digit_mod (w k m : Nat) (h : w < k) :
    m % 10 ^ k / 10 ^ w % 10 = m / 10 ^ w % 10 := by
  have hk : 10 ^ k = 10 ^ w * 10 ^ (k - w) := by
    rw [← pow_add]
    congr 1
    omega
  rw [hk, Nat.mod_mul_right_div_self]
  exact Nat.mod_mod_of_dvd _ (dvd_pow_self 10 (by omega))

lemma padNum_mod (w : Nat) : ∀ k m, w ≤ k →
    padNum w (m % 10 ^ k) = padNum w m := by
  induction w with
  | zero => intro k m _; rfl
  | succ w ih =>
    intro k m hk
    simp only [padNum]
    rw [digit_mod w k m (by omega), ih k m (by omega)]

lemma padNum_lt_iff (w : Nat) : ∀ m n, m < 10 ^ w → n < 10 ^ w →
    (lexLtB (padNum w m) (padNum w n) = true ↔ m < n) := by
  induction w with
  | zero =>
    intro m n hm hn
    rw [pow_zero] at hm hn
    exact iff_of_false (by simp [padNum, lexLtB]) (by omega)
  | succ w ih =>
    intro m n hm hn
    have hpow : (0 : Nat) < 10 ^ w := Nat.pos_pow_of_pos w (by omega)
    rw [pow_succ] at hm hn
    have hdm : m / 10 ^ w < 10 := Nat.div_lt_of_lt_mul hm
    have hdn : n / 10 ^ w < 10 := Nat.div_lt_of_lt_mul hn
    have e₁ := Nat.div_add_mod m (10 ^ w)
    have e₂ := Nat.div_add_mod n (10 ^ w)
    have r₁ := Nat.mod_lt m hpow
    have r₂ := Nat.mod_lt n hpow
    simp only [padNum, lexLtB, Nat.mod_eq_of_lt hdm, Nat.mod_eq_of_lt hdn]
    rcases lt_trichotomy (m / 10 ^ w) (n / 10 ^ w) with hlt | heq | hgt
    · have hmul : 10 ^ w * (m / 10 ^ w + 1) ≤ 10 ^ w * (n / 10 ^ w) :=
        Nat.mul_le_mul_left _ (by omega)
      rw [Nat.mul_add, Nat.mul_one] at hmul
      rw [if_pos ((char_lt_digits (m / 10 ^ w) hdm (n / 10 ^ w) hdn).2 hlt)]
      exact iff_of_true rfl (by omega)
    · rw [heq] at e₁ ⊢
      rw [if_neg (Nat.lt_irrefl _), if_neg (Nat.lt_irrefl _),
        ← padNum_mod w w m (le_refl w), ← padNum_mod w w n (le_refl w)]
      rw [ih (m % 10 ^ w) (n % 10 ^ w) (Nat.mod_lt m hpow)
        (Nat.mod_lt n hpow)]
      omega
    · have hmul : 10 ^ w * (n / 10 ^ w + 1) ≤ 10 ^ w * (m / 10 ^ w) :=
        Nat.mul_le_mul_left _ (by omega)
      rw [Nat.mul_add, Nat.mul_one] at hmul
      have hc := (char_lt_digits (n / 10 ^ w) hdn (m / 10 ^ w) hdm).2 hgt
      rw [if_neg (Nat.lt_asymm hc), if_pos hc]
      exact iff_of_false (by simp) (by omega)

lemma encode_data (topic : String) (o : Nat) :
    (encode topic o).data =
      ("topics/".data ++ topic.data ++ "/".data) ++
        (padNum 20 o ++ ".json".data) := by
  simp [encode, List.append_assoc]

lemma encode_lt_iff (topic : String) (o₁ o₂ : Nat) (h₁ : o₁ < 10 ^ 20)
    (h₂ : o₂ < 10 ^ 20) :
    (keyLt (encode topic o₁) (encode topic o₂) = true ↔ o₁ < o₂) := by
  unfold keyLt
  rw [encode_data, encode_data, lexLtB_append_iff,
    lexLtB_append_same _ _ _ (by rw [padNum_length, padNum_length])]
  exact padNum_lt_iff 20 o₁ o₂ h₁ h₂

/-- Claim C8 (amended): the storage key is a function of (topic, offset)
only and has exactly the form topics/\x7btopic\x7d/\x7boffset zero-padded
to 20 digits\x7d.json — the spec's form plus a `.json` suffix — and,
for offsets below 10^20, lexicographic key ordering within a topic still
equals numeric offset ordering. -/
theorem key_encoding_amended (topic : String) (o₁ o₂ : Nat)
    (h₁ : o₁ < 10 ^ 20) (h₂ : o₂ < 10 ^ 20) :
    (∀ off : Nat, encode topic off = specKey topic off ++ ".json")
    ∧ (keyLt (encode topic o₁) (encode topic o₂) = true ↔ o₁ < o₂) :=
  ⟨fun _ => rfl, encode_lt_iff topic o₁ o₂ h₁ h₂⟩

theorem key_encoding_amended_witness :
    (1 : Nat) < 10 ^ 20 ∧ (2 : Nat) < 10 ^ 20
    ∧ (encode "orders" 1 = specKey "orders" 1 ++ ".json")
    ∧ (keyLt (encode "orders" 1) (encode "orders" 2) = true ↔ 1 < 2) :=
  ⟨by decide, by decide,
   (key_encoding_amended "orders" 1 2 (by decide) (by decide)).1 1,
   (key_encoding_amended "orders" 1 2 (by decide) (by decide)).2⟩

end ServerlessStreams
